import Mathlib

/-!
Verification of the mongolify schema-derivation and validation-compilation core.

The definitions below are shallow embeddings of the repository's modules:
* `jsonSchemaCompiler` (`applyOverrides`, `toJsonSchema`, `mergeRules`, `flatten`),
* `mongooseIntrospect` (`compileRulesFromMongooseSchema`, `mapInstanceToType`, `setNested`),
* `cacheRegistry` (`getOrSetRuleTree`, `EMPTY_RULE_TREE`, `makeOverrideKey`),
* the error-normalising wrapper returned by `ajvEngine.buildAjvValidator`.

JavaScript objects are modelled as insertion-ordered association lists whose
update operation (`Fields.set`, `setEntry`) replaces the value in place when the
key exists and appends otherwise, matching JS property assignment.  A field
holding `undefined` is identified with an absent field (`Option.none`).
JavaScript exceptions (the `TypeError` thrown when the rebuild loop of
`applyOverrides` assigns into an `undefined` `children` slot) are modelled by
`Option.none` results.
-/

/-- The closed `PrimitiveType` enumeration from `types.d.ts`. -/
inductive PrimitiveType where
  | string
  | number
  | boolean
  | date
  | objectId
  | array
  | object
  | mixed
  | buffer
deriving DecidableEq, Repr

mutual

/-- A `Rule` node from `types.d.ts`: a type tag plus optional facets.
`Option.none` models an absent (or `undefined`) property of the JS object. -/
inductive Rule : Type where
  | mk (ty : PrimitiveType) (required : Option Bool)
       (minLength maxLength : Option Nat)
       (pattern : Option String) (enumVals : Option (List String))
       (minV maxV : Option Int)
       (items : OptRule) (minItems maxItems : Option Nat)
       (children : OptFields) : Rule

/-- An optional `Rule` (the `items` facet), as its own inductive so that all
recursion over rules is structural. -/
inductive OptRule : Type where
  | none : OptRule
  | some (r : Rule) : OptRule

/-- An optional `children` map. -/
inductive OptFields : Type where
  | none : OptFields
  | some (fs : Fields) : OptFields

/-- The insertion-ordered field map of an `object` rule
(`Record<string, Rule>` in the source). -/
inductive Fields : Type where
  | nil : Fields
  | cons (name : String) (rule : Rule) (tl : Fields) : Fields

end

/-- Type tag of a rule. -/
def Rule.ty : Rule → PrimitiveType
  | .mk t _ _ _ _ _ _ _ _ _ _ _ => t

/-- The `required` flag of a rule. -/
def Rule.required : Rule → Option Bool
  | .mk _ r _ _ _ _ _ _ _ _ _ _ => r

/-- The `children` map of a rule. -/
def Rule.children : Rule → OptFields
  | .mk _ _ _ _ _ _ _ _ _ _ _ c => c

/-- Build a rule with only `type` set (every optional facet absent). -/
def Rule.ofType (t : PrimitiveType) : Rule :=
  .mk t .none .none .none .none .none .none .none .none .none .none .none

/-- JS property read on a field map: the value bound to `k`, if any. -/
def Fields.get : Fields → String → Option Rule
  | .nil, _ => Option.none
  | .cons n r tl, k => if n = k then Option.some r else tl.get k

/-- JS property assignment on a field map: replace in place when the key
exists, append otherwise. -/
def Fields.set : Fields → String → Rule → Fields
  | .nil, k, v => .cons k v .nil
  | .cons n r tl, k, v =>
      if n = k then .cons n v tl else .cons n r (tl.set k v)

/-- Lookup in a generic association list (used for flattened path maps). -/
def lookupEntry {κ α : Type} [DecidableEq κ] : List (κ × α) → κ → Option α
  | [], _ => Option.none
  | (k, v) :: tl, q => if k = q then Option.some v else lookupEntry tl q

/-- JS-style assignment in a generic association list: replace in place when
the key exists, append otherwise. -/
def setEntry {κ α : Type} [DecidableEq κ] : List (κ × α) → κ → α → List (κ × α)
  | [], k, v => [(k, v)]
  | (k0, v0) :: tl, k, v =>
      if k0 = k then (k0, v) :: tl else (k0, v0) :: setEntry tl k v

/-- The `Overrides` value from `types.d.ts`.  The list-valued fields model
`include`/`exclude`/`optional`/`required` (absent and `[]` behave alike in
`applyOverrides`, which only tests emptiness or membership); `append` models
the `path → Rule` record as an insertion-ordered association list. -/
structure Overrides where
  includeL : List String := []
  excludeL : List String := []
  optionalL : List String := []
  requiredL : List String := []
  append : List (String × Rule) := []

/-- The option-wise overlay merge `mergeRules(base, overlay) = {...base, ...overlay}`
from `jsonSchemaCompiler`: a property present on the overlay wins. -/
def mergeRules (base overlay : Rule) : Rule :=
  match base, overlay with
  | .mk _ r1 mnl1 mxl1 p1 e1 mn1 mx1 i1 mni1 mxi1 c1,
    .mk t2 r2 mnl2 mxl2 p2 e2 mn2 mx2 i2 mni2 mxi2 c2 =>
      .mk t2 (r2.orElse fun _ => r1) (mnl2.orElse fun _ => mnl1)
        (mxl2.orElse fun _ => mxl1) (p2.orElse fun _ => p1)
        (e2.orElse fun _ => e1) (mn2.orElse fun _ => mn1)
        (mx2.orElse fun _ => mx1)
        (match i2 with | .none => i1 | .some r => .some r)
        (mni2.orElse fun _ => mni1) (mxi2.orElse fun _ => mxi1)
        (match c2 with | .none => c1 | .some fs => .some fs)

/-- Dotted-path concatenation used by `flatten`:
`prefix ? prefix + "." + k : k`. -/
def joinPath (pre k : String) : String :=
  if pre = "" then k else pre ++ "." ++ k

mutual

/-- One step of `flatten` from `jsonSchemaCompiler`: an `object` child with a
(present) `children` map is expanded, any other child is recorded as a leaf at
its dotted path. -/
def flattenRule (key : String) (r : Rule) (out : List (String × Rule)) :
    List (String × Rule) :=
  match r with
  | .mk ty rq mnl mxl p e mn mx i mni mxi ch =>
    match ty, ch with
    | .object, .some fs => flattenFields fs key out
    | ty', ch' => setEntry out key (.mk ty' rq mnl mxl p e mn mx i mni mxi ch')

/-- Flatten the entries of a `children` map, accumulating into `out` in
iteration order, as the `for … of Object.entries` loop of `flatten` does. -/
def flattenFields (fs : Fields) (pre : String) (out : List (String × Rule)) :
    List (String × Rule) :=
  match fs with
  | .nil => out
  | .cons k c tl => flattenFields tl pre (flattenRule (joinPath pre k) c out)

end

/-- `flatten(ruleTree)`: the dotted-path → rule map of a tree
(`tree.children || {}` at the root). -/
def flatten (t : Rule) : List (String × Rule) :=
  match t.children with
  | .none => []
  | .some fs => flattenFields fs "" []

/-- The clone-and-force step of `applyOverrides`: `{...rule}` with
`required` forced to `false` for `optional` paths and then to `true` for
`required` paths (the second assignment wins). -/
def cloneWith (ov : Overrides) (path : String) (r : Rule) : Rule :=
  match r with
  | .mk ty rq mnl mxl p e mn mx i mni mxi ch =>
    let rq1 := if path ∈ ov.optionalL then Option.some false else rq
    let rq2 := if path ∈ ov.requiredL then Option.some true else rq1
    .mk ty rq2 mnl mxl p e mn mx i mni mxi ch

/-- The include/exclude/optional/required selection loop of `applyOverrides`
(`policy` build of `jsonSchemaCompiler`, the `for (path, rule) of baseMap`
loop): walk the flattened base map, drop paths missing from a non-empty
`include`, drop `exclude` paths, and store the forced clone of each survivor. -/
def selectBaseAux (ov : Overrides) :
    List (String × Rule) → List (String × Rule) → List (String × Rule)
  | [], acc => acc
  | (path, rule) :: tl, acc =>
      if ov.includeL ≠ [] ∧ path ∉ ov.includeL then selectBaseAux ov tl acc
      else if path ∈ ov.excludeL then selectBaseAux ov tl acc
      else selectBaseAux ov tl (setEntry acc path (cloneWith ov path rule))

/-- The selected (retained) base entries of `applyOverrides`. -/
def selectBase (t : Rule) (ov : Overrides) : List (String × Rule) :=
  selectBaseAux ov (flatten t) []

/-- The default rule merged under every `append` entry:
`{ type: 'string', required: true }`. -/
def appendDefault : Rule :=
  .mk .string (Option.some true) .none .none .none .none .none .none .none
    .none .none .none

/-- The append loop of `applyOverrides`:
`effective[path] = mergeRules({type:'string', required:true}, rule)`,
entry by entry in iteration order. -/
def applyAppendAux : List (String × Rule) → List (String × Rule) →
    List (String × Rule)
  | [], eff => eff
  | (path, rule) :: tl, eff =>
      applyAppendAux tl (setEntry eff path (mergeRules appendDefault rule))

/-- Apply the whole `append` record onto the selected entries. -/
def applyAppend (eff : List (String × Rule)) (ov : Overrides) :
    List (String × Rule) :=
  applyAppendAux ov.append eff

/-- A fresh interior node: `{ type: 'object', children: {} }`. -/
def emptyObjectRule : Rule :=
  .mk .object .none .none .none .none .none .none .none .none .none .none
    (.some .nil)

/-- One entry of the rebuild loop of `applyOverrides`: descend along the
dotted-path segments, materialising `{type:'object', children:{}}` for a
missing segment, keeping whatever node is already there otherwise, and assign
the rule at the final segment.  The source loop reads and writes
`cur.children` without a guard, so reaching a node whose `children` is absent
throws a `TypeError`; that outcome is `Option.none` here. -/
def insertPath (cur : Rule) (parts : List String) (v : Rule) : Option Rule :=
  match parts with
  | [] => Option.none
  | [last] =>
      match cur with
      | .mk ty rq mnl mxl p e mn mx i mni mxi ch =>
        match ch with
        | .none => Option.none
        | .some fs =>
            Option.some (.mk ty rq mnl mxl p e mn mx i mni mxi
              (.some (fs.set last v)))
  | seg :: rest =>
      match cur with
      | .mk ty rq mnl mxl p e mn mx i mni mxi ch =>
        match ch with
        | .none => Option.none
        | .some fs =>
            let node := match fs.get seg with
              | Option.some n => n
              | Option.none => emptyObjectRule
            match insertPath node rest v with
            | Option.none => Option.none
            | Option.some n2 =>
                Option.some (.mk ty rq mnl mxl p e mn mx i mni mxi
                  (.some (fs.set seg n2)))

/-- Character-level worker for `segsOf`: split on `'.'`, accumulating the
current segment in reverse. -/
def splitDot : List Char → List Char → List String
  | [], acc => [String.mk acc.reverse]
  | c :: tl, acc =>
      if c = '.' then String.mk acc.reverse :: splitDot tl []
      else splitDot tl (c :: acc)

/-- Split a dotted path into its segments (`path.split('.')`): one segment
per dot-separated run, so `""` gives `[""]` and `"a.b"` gives
`["a", "b"]`. -/
def segsOf (p : String) : List String := splitDot p.data []

/-- Fold of the rebuild loop over the effective entries, starting from the
fresh root `{ type: 'object', children: {} }`. -/
def rebuildAux : List (String × Rule) → Rule → Option Rule
  | [], acc => Option.some acc
  | (path, rule) :: tl, acc =>
      match insertPath acc (segsOf path) rule with
      | Option.none => Option.none
      | Option.some acc' => rebuildAux tl acc'

/-- `applyOverrides(ruleTree, overrides)` from `jsonSchemaCompiler`: flatten,
select, force required flags, append, rebuild.  `Option.none` is the
`TypeError` the source throws when the rebuild loop dereferences an absent
`children`. -/
def applyOverrides (ruleTree : Rule) (ov : Overrides) : Option Rule :=
  rebuildAux (applyAppend (selectBase ruleTree ov) ov) emptyObjectRule

/-- Navigate a tree along path segments through `children` maps. -/
def getPath (t : Rule) : List String → Option Rule
  | [] => Option.some t
  | k :: rest =>
      match t.children with
      | .none => Option.none
      | .some fs =>
          match fs.get k with
          | Option.none => Option.none
          | Option.some c => getPath c rest

/-- Boolean segment-list prefix test. -/
def isSegPrefixOf : List String → List String → Bool
  | [], _ => true
  | _ :: _, [] => false
  | a :: as, b :: bs => decide (a = b) && isSegPrefixOf as bs

/-- Two dotted paths conflict when either's segment list is a prefix of the
other's (equal paths conflict). -/
def conflictB (p q : String) : Bool :=
  isSegPrefixOf (segsOf p) (segsOf q) || isSegPrefixOf (segsOf q) (segsOf p)

mutual

/-- A JSON value (the shape of raw override objects and of emitted schemas).
JS objects are insertion-ordered association lists; a property holding
`undefined` is identified with an absent property. -/
inductive Json : Type where
  | null : Json
  | bool (b : Bool) : Json
  | num (n : Int) : Json
  | str (s : String) : Json
  | arr (elems : JsonList) : Json
  | obj (fields : JsonFields) : Json

/-- A list of JSON values, as its own inductive for structural recursion. -/
inductive JsonList : Type where
  | nil : JsonList
  | cons (hd : Json) (tl : JsonList) : JsonList

/-- The insertion-ordered property list of a JSON object. -/
inductive JsonFields : Type where
  | nil : JsonFields
  | cons (key : String) (val : Json) (tl : JsonFields) : JsonFields

end

/-- Property read on a JSON object (first binding wins, as JS keys are unique). -/
def JsonFields.get : JsonFields → String → Option Json
  | .nil, _ => Option.none
  | .cons k v tl, q => if k = q then Option.some v else tl.get q

/-- JavaScript truthiness of a JSON value. -/
def truthyJ : Json → Bool
  | .null => false
  | .bool b => b
  | .num n => n != 0
  | .str s => s != ""
  | .arr _ => true
  | .obj _ => true

/-- Build a JSON array of strings. -/
def jsonStrArr : List String → JsonList
  | [] => .nil
  | s :: tl => .cons (.str s) (jsonStrArr tl)

mutual

/-- The `nodeToSchema` converter of `toJsonSchema`: one `Rule` node to its
JSON-Schema object, with `allowUnknown` captured from the root call. -/
def nodeToSchema (allowUnknown : Bool) (node : Rule) : Json :=
  match node with
  | .mk ty _ mnl mxl pat en mn mx items mni mxi ch =>
    match ty with
    | .object =>
        match ch with
        | .none =>
            .obj (.cons "type" (.str "object")
              (.cons "properties" (.obj .nil)
                (.cons "additionalProperties" (.bool allowUnknown) .nil)))
        | .some fs =>
            let reqTail : JsonFields :=
              match childRequired fs with
              | [] => .cons "additionalProperties" (.bool allowUnknown) .nil
              | l => .cons "required" (.arr (jsonStrArr l))
                  (.cons "additionalProperties" (.bool allowUnknown) .nil)
            .obj (.cons "type" (.str "object")
              (.cons "properties" (.obj (childProperties allowUnknown fs)) reqTail))
    | .array =>
        let itemsSchema := match items with
          | .none => Json.obj .nil
          | .some r => nodeToSchema allowUnknown r
        let t2 : JsonFields := match mxi with
          | Option.none => .nil
          | Option.some v => .cons "maxItems" (.num (Int.ofNat v)) .nil
        let t1 : JsonFields := match mni with
          | Option.none => t2
          | Option.some v => .cons "minItems" (.num (Int.ofNat v)) t2
        .obj (.cons "type" (.str "array") (.cons "items" itemsSchema t1))
    | .string =>
        let t3 : JsonFields := match en with
          | Option.none => .nil
          | Option.some l => .cons "enum" (.arr (jsonStrArr l)) .nil
        let t2 : JsonFields := match pat with
          | Option.none => t3
          | Option.some s => if s = "" then t3 else .cons "pattern" (.str s) t3
        let t1 : JsonFields := match mxl with
          | Option.none => t2
          | Option.some v => .cons "maxLength" (.num (Int.ofNat v)) t2
        let t0 : JsonFields := match mnl with
          | Option.none => t1
          | Option.some v => .cons "minLength" (.num (Int.ofNat v)) t1
        .obj (.cons "type" (.str "string") t0)
    | .number =>
        let t1 : JsonFields := match mx with
          | Option.none => .nil
          | Option.some v => .cons "maximum" (.num v) .nil
        let t0 : JsonFields := match mn with
          | Option.none => t1
          | Option.some v => .cons "minimum" (.num v) t1
        .obj (.cons "type" (.str "number") t0)
    | .boolean => .obj (.cons "type" (.str "boolean") .nil)
    | .date => .obj (.cons "type" (.str "string")
        (.cons "format" (.str "date-time") .nil))
    | .objectId => .obj (.cons "type" (.str "string")
        (.cons "pattern" (.str "^[0-9a-fA-F]\x7b24\x7d$") .nil))
    | .mixed => .obj .nil
    | .buffer => .obj .nil

/-- The `properties` map of an object node (one recursive conversion per child,
in iteration order). -/
def childProperties (allowUnknown : Bool) : Fields → JsonFields
  | .nil => .nil
  | .cons k c tl => .cons k (nodeToSchema allowUnknown c) (childProperties allowUnknown tl)

/-- The `required` name list of an object node (children whose `required`
flag is truthy, in iteration order). -/
def childRequired : Fields → List String
  | .nil => []
  | .cons k c tl =>
      if (c.required.getD false) = true then k :: childRequired tl
      else childRequired tl

end

/-- `toJsonSchema(tree, allowUnknown)` from `jsonSchemaCompiler`: convert the
root object node (rebuilt from `tree.children`). -/
def toJsonSchema (tree : Rule) (allowUnknown : Bool := false) : Json :=
  nodeToSchema allowUnknown
    (.mk .object .none .none .none .none .none .none .none .none .none .none
      tree.children)

/-- Comma-join a list of serialized fragments. -/
def commaJoin : List String → String
  | [] => ""
  | [s] => s
  | s :: tl => s ++ "," ++ commaJoin tl

/-- JSON string quoting.  The strings serialized by the cache key (path names,
type names, option flags) contain no characters that require escaping, so the
quoting is plain double quotes. -/
def jsonQuote (s : String) : String := "\"" ++ s ++ "\""

/-- The sorted key list `Object.keys(overrideData).sort()` that
`makeOverrideKey` passes to `JSON.stringify` as the replacer array. -/
def overrideKeyNames : List String :=
  ["allowUnknown", "append", "coerceTypes", "exclude", "include", "optional",
   "required"]

mutual

/-- `JSON.stringify(value, replacerKeys)` with a replacer array: every object
level serializes only the properties named in `overrideKeyNames`, in the
replacer array's order; arrays serialize all elements. -/
def stringifyJ : Json → String
  | .null => "null"
  | .bool b => if b then "true" else "false"
  | .num n => toString n
  | .str s => jsonQuote s
  | .arr xs => "[" ++ commaJoin (stringifyArr xs) ++ "]"
  | .obj fs =>
      "\x7b" ++
        commaJoin (overrideKeyNames.filterMap (fun k =>
          (lookupEntry (stringifyEntries fs) k).map
            (fun sv => jsonQuote k ++ ":" ++ sv))) ++
      "\x7d"

/-- Serialized elements of a JSON array. -/
def stringifyArr : JsonList → List String
  | .nil => []
  | .cons v tl => stringifyJ v :: stringifyArr tl

/-- Serialized values of every property of a JSON object, keyed by name. -/
def stringifyEntries : JsonFields → List (String × String)
  | .nil => []
  | .cons k v tl => (k, stringifyJ v) :: stringifyEntries tl

end

/-- The `x || null` normalisation used by `makeOverrideKey` on each override
field: a falsy (or absent) value becomes `null`. -/
def jsOrNull (v : Option Json) : Json :=
  match v with
  | Option.some j => if truthyJ j then j else .null
  | Option.none => .null

/-- The `!!x` coercion used by `makeOverrideKey` on `allowUnknown` and
`coerceTypes`. -/
def jsBoolOf (v : Option Json) : Bool :=
  match v with
  | Option.some j => truthyJ j
  | Option.none => false

/-- `makeOverrideKey(overrides)` from `cacheRegistry`: build the fixed-shape
`overrideData` object and serialize it with the sorted key list as the
`JSON.stringify` replacer array.  The argument is the raw JS object
(`{...overrides, ...options}`), modelled as a JSON object. -/
def makeOverrideKey (raw : JsonFields) : String :=
  let overrideData : JsonFields :=
    .cons "include" (jsOrNull (raw.get "include"))
      (.cons "exclude" (jsOrNull (raw.get "exclude"))
        (.cons "optional" (jsOrNull (raw.get "optional"))
          (.cons "required" (jsOrNull (raw.get "required"))
            (.cons "append" (jsOrNull (raw.get "append"))
              (.cons "allowUnknown" (.bool (jsBoolOf (raw.get "allowUnknown")))
                (.cons "coerceTypes" (.bool (jsBoolOf (raw.get "coerceTypes")))
                  .nil))))))
  stringifyJ (.obj overrideData)

/-- The sentinel `EMPTY_RULE_TREE` of `cacheRegistry`.  The source literal is
`{ type: 'object', fields: {} }`: it carries a stray `fields` property and no
`children` property at all, so its `children` is absent here (the declared
`RuleTree` interface would require `children` to be present). -/
def EMPTY_RULE_TREE : Rule :=
  .mk .object .none .none .none .none .none .none .none .none .none .none
    .none

/-- `getOrSetRuleTree(schema, compileFn)` from `cacheRegistry`.  The schema
reference is modelled as an identity handle (`Option Nat`, `none` for
`null`/`undefined`), the `WeakMap` as an association list keyed by handle.
The result carries the returned tree, the updated cache, and how many times
`compileFn` ran during the call (0 on a hit or on a missing schema). -/
def getOrSetRuleTree (cache : List (Nat × Rule)) (schema : Option Nat)
    (compileFn : Nat → Rule) : Rule × List (Nat × Rule) × Nat :=
  match schema with
  | Option.none => (EMPTY_RULE_TREE, cache, 0)
  | Option.some s =>
      match lookupEntry cache s with
      | Option.some cached => (cached, cache, 0)
      | Option.none =>
          let ruleTree := compileFn s
          (ruleTree, setEntry cache s ruleTree, 1)

/-- An error object produced by the compiled Ajv validator: its
`instancePath`, the failed constraint `keyword`, the `params.missingProperty`
carried by `required`-keyword errors, and the human-readable `message`. -/
structure AjvError where
  instancePath : String
  keyword : String
  missingProperty : Option String
  message : String

/-- A normalized error entry `{field, error, message}` of a
`ValidatorResult`. -/
structure NormError where
  field : String
  error : String
  message : String
deriving DecidableEq, Repr

/-- The `{ok, data, errors}` object returned by the validator function. -/
structure ValidatorResult (α : Type) where
  ok : Bool
  data : Option α
  errors : List NormError

/-- `instancePath.replace(/^\//, '').replace(/\//g, '.')`: strip one leading
slash, then turn the remaining slashes into dots. -/
def normalizeInstancePath (p : String) : String :=
  (if p.startsWith "/" then p.drop 1 else p).replace "/" "."

/-- The JS truthiness chain `a || b || ''` over the normalized path and the
optional `missingProperty`. -/
def jsOrStr (a : String) (b : Option String) : String :=
  if a ≠ "" then a
  else
    match b with
    | Option.some m => if m ≠ "" then m else ""
    | Option.none => ""

/-- The per-error mapping of the validator closure in `buildAjvValidator`:
`{field: instancePath-normalized || missingProperty || '', error: keyword,
message}`. -/
def normErr (e : AjvError) : NormError :=
  { field := jsOrStr (normalizeInstancePath e.instancePath) e.missingProperty
    error := e.keyword
    message := e.message }

/-- The closure returned by `buildAjvValidator`, parametrised by the compiled
engine: run the engine, and on failure map its error list into
`{field, error, message}` records with `ok = false` and `data = null`. -/
def runBuiltValidator {α : Type} (engine : α → Bool × List AjvError)
    (data : α) : ValidatorResult α :=
  let r := engine data
  if r.1 then { ok := true, data := Option.some data, errors := [] }
  else { ok := false, data := Option.none, errors := r.2.map normErr }

/-- Specification-side restatement of the error mapping, following the spec's
words: "`field` is derived from the engine's failure location, normalized to
dot-notation (path-separator translated, leading separator stripped) or, for
missing-required-field failures, the missing field's name"; `error` is the
engine keyword and `message` the engine message.  Compared against `normErr`
(the source's truthiness chain) in the C9 theorem. -/
def specNormalizeError (e : AjvError) : NormError :=
  { field :=
      let n := normalizeInstancePath e.instancePath
      if n = "" then e.missingProperty.getD "" else n
    error := e.keyword
    message := e.message }

/-- Mongoose field options (`schematype.options` / `caster.options`) as the
introspector consumes them.  `required` is the already-coerced `!!opts.required`;
`matchPat` is the regex source of `opts.match` (`new RegExp(x).source`); for
`date` fields `minV`/`maxV` hold the already-converted
`new Date(opts.min).getTime()` epoch milliseconds. -/
structure MOptions where
  required : Bool := false
  enumVals : Option (List String) := Option.none
  matchPat : Option String := Option.none
  minlength : Option Nat := Option.none
  maxlength : Option Nat := Option.none
  minV : Option Int := Option.none
  maxV : Option Int := Option.none
  minItems : Option Nat := Option.none
  maxItems : Option Nat := Option.none

mutual

/-- A Mongoose `SchemaType` descriptor: its `instance` tag, `options`,
optional array `caster` and optional nested sub-`schema`. -/
inductive MSchemaType : Type where
  | mk (inst : String) (opts : MOptions) (caster : OptMSchemaType)
       (schema : OptMSchema) : MSchemaType

/-- An optional `caster` descriptor. -/
inductive OptMSchemaType : Type where
  | none : OptMSchemaType
  | some (st : MSchemaType) : OptMSchemaType

/-- A Mongoose schema, reduced to its `eachPath` enumeration: the ordered
list of `(dottedPath, schematype)` pairs the callback receives. -/
inductive MSchema : Type where
  | nil : MSchema
  | cons (path : String) (st : MSchemaType) (tl : MSchema) : MSchema

/-- An optional nested sub-schema. -/
inductive OptMSchema : Type where
  | none : OptMSchema
  | some (s : MSchema) : OptMSchema

end

/-- `mapInstanceToType` from `mongooseIntrospect`: the fixed table from
Mongoose `instance` tags to `PrimitiveType`, with `mixed` as the fallback. -/
def mapInstanceToType (inst : String) : PrimitiveType :=
  match inst with
  | "String" => .string
  | "Number" => .number
  | "Boolean" => .boolean
  | "Date" => .date
  | "ObjectID" => .objectId
  | "Decimal128" => .number
  | "Buffer" => .buffer
  | "Array" => .array
  | "Embedded" => .object
  | _ => .mixed

/-- `setNested(root, path, value)` from `mongooseIntrospect`, functionally:
descend along the path segments, creating `children` maps when absent and
`{type:'object', children:{}}` nodes for missing segments (existing nodes are
kept and descended into), and bind the rule at the final segment. -/
def setNested (r : Rule) (parts : List String) (v : Rule) : Rule :=
  match parts with
  | [] => r
  | [last] =>
      match r with
      | .mk ty rq mnl mxl p e mn mx i mni mxi ch =>
        let fs := match ch with
          | .none => Fields.nil
          | .some fs => fs
        .mk ty rq mnl mxl p e mn mx i mni mxi (.some (fs.set last v))
  | seg :: rest =>
      match r with
      | .mk ty rq mnl mxl p e mn mx i mni mxi ch =>
        let fs := match ch with
          | .none => Fields.nil
          | .some fs => fs
        let node := match fs.get seg with
          | Option.some n => n
          | Option.none => emptyObjectRule
        .mk ty rq mnl mxl p e mn mx i mni mxi
          (.some (fs.set seg (setNested node rest v)))

mutual

/-- The per-path rule builder of `compileRulesFromMongooseSchema`: map the
instance tag, set `required = !!opts.required`, lift the per-type constraints
(string / number / date / array with caster), and finally rewrite the node to
an `object` with recursive `children` when the schematype carries a nested
sub-schema. -/
def buildRule (st : MSchemaType) : Rule :=
  match st with
  | .mk inst opts caster sub =>
    let t := mapInstanceToType inst
    let base : Rule :=
      match t with
      | .string =>
          .mk .string (Option.some opts.required) opts.minlength opts.maxlength
            opts.matchPat opts.enumVals Option.none Option.none .none
            Option.none Option.none .none
      | .number =>
          .mk .number (Option.some opts.required) Option.none Option.none
            Option.none Option.none opts.minV opts.maxV .none Option.none
            Option.none .none
      | .date =>
          .mk .date (Option.some opts.required) Option.none Option.none
            Option.none Option.none opts.minV opts.maxV .none Option.none
            Option.none .none
      | .array =>
          let itemsRule : OptRule :=
            match caster with
            | .none => .none
            | .some c =>
                match c with
                | .mk cInst cOpts _ cSub =>
                  let itemType := mapInstanceToType cInst
                  let itemBase : Rule :=
                    match itemType with
                    | .string =>
                        .mk .string Option.none cOpts.minlength cOpts.maxlength
                          cOpts.matchPat cOpts.enumVals Option.none Option.none
                          .none Option.none Option.none .none
                    | .number =>
                        .mk .number Option.none Option.none Option.none
                          Option.none Option.none cOpts.minV cOpts.maxV .none
                          Option.none Option.none .none
                    | other => Rule.ofType other
                  match cSub with
                  | .none => .some itemBase
                  | .some csub =>
                      match itemBase with
                      | .mk _ rq2 mnl2 mxl2 p2 e2 mn2 mx2 i2 mni2 mxi2 _ =>
                        .some (.mk .object rq2 mnl2 mxl2 p2 e2 mn2 mx2 i2 mni2
                          mxi2 (compileAux csub emptyObjectRule).children)
          .mk .array (Option.some opts.required) Option.none Option.none
            Option.none Option.none Option.none Option.none itemsRule
            opts.minItems opts.maxItems .none
      | other =>
          match Rule.ofType other with
          | .mk t0 _ mnl0 mxl0 p0 e0 mn0 mx0 i0 mni0 mxi0 c0 =>
            .mk t0 (Option.some opts.required) mnl0 mxl0 p0 e0 mn0 mx0 i0 mni0
              mxi0 c0
    match sub with
    | .none => base
    | .some s =>
        match base with
        | .mk _ rq mnl mxl p e mn mx i mni mxi _ =>
          .mk .object rq mnl mxl p e mn mx i mni mxi
            (compileAux s emptyObjectRule).children

/-- The `schema.eachPath` loop of `compileRulesFromMongooseSchema`: build the
rule for each path in enumeration order and attach it with `setNested`. -/
def compileAux (s : MSchema) (acc : Rule) : Rule :=
  match s with
  | .nil => acc
  | .cons path st tl => compileAux tl (setNested acc (segsOf path) (buildRule st))

end

/-- `compileRulesFromMongooseSchema(schema)` from `mongooseIntrospect`: walk
every `(path, schematype)` pair into a fresh `{type:'object', children:{}}`
root. -/
def compileRulesFromMongooseSchema (s : MSchema) : Rule :=
  compileAux s emptyObjectRule

theorem Fields.get_set_eq : ∀ (fs : Fields) (k : String) (v : Rule),
    (fs.set k v).get k = Option.some v
  | .nil, k, v => by simp [Fields.set, Fields.get]
  | .cons n r tl, k, v => by
      by_cases h : n = k
      · simp [Fields.set, Fields.get, h]
      · simp [Fields.set, Fields.get, h, Fields.get_set_eq tl k v]

theorem Fields.get_set_ne : ∀ (fs : Fields) (k q : String) (v : Rule),
    k ≠ q → (fs.set k v).get q = fs.get q
  | .nil, k, q, v, h => by simp [Fields.set, Fields.get, h]
  | .cons n r tl, k, q, v, h => by
      by_cases h2 : n = k
      · subst h2; simp [Fields.set, Fields.get, h]
      · simp [Fields.set, Fields.get, h2, Fields.get_set_ne tl k q v h]

theorem lookupEntry_setEntry_eq {κ α : Type} [DecidableEq κ]
    (l : List (κ × α)) (k : κ) (v : α) :
    lookupEntry (setEntry l k v) k = Option.some v := by
  induction l with
  | nil => simp [setEntry, lookupEntry]
  | cons e tl ih =>
      obtain ⟨k0, v0⟩ := e
      by_cases h : k0 = k
      · simp [setEntry, lookupEntry, h]
      · simp [setEntry, lookupEntry, h, ih]

theorem lookupEntry_setEntry_ne {κ α : Type} [DecidableEq κ]
    (l : List (κ × α)) (k q : κ) (v : α) (h : k ≠ q) :
    lookupEntry (setEntry l k v) q = lookupEntry l q := by
  induction l with
  | nil => simp [setEntry, lookupEntry, h]
  | cons e tl ih =>
      obtain ⟨k0, v0⟩ := e
      by_cases h2 : k0 = k
      · subst h2; simp [setEntry, lookupEntry, h]
      · simp [setEntry, lookupEntry, h2, ih]

theorem mem_keys_setEntry {κ α : Type} [DecidableEq κ]
    (l : List (κ × α)) (k q : κ) (v : α) :
    q ∈ (setEntry l k v).map Prod.fst ↔ q = k ∨ q ∈ l.map Prod.fst := by
  induction l with
  | nil => simp [setEntry]
  | cons e tl ih =>
      obtain ⟨k0, v0⟩ := e
      by_cases h : k0 = k
      · subst h; simp [setEntry]
      · simp [setEntry, h, ih]; tauto

theorem nodup_keys_setEntry {κ α : Type} [DecidableEq κ]
    (l : List (κ × α)) (k : κ) (v : α)
    (h : (l.map Prod.fst).Nodup) : ((setEntry l k v).map Prod.fst).Nodup := by
  induction l with
  | nil => simp [setEntry]
  | cons e tl ih =>
      obtain ⟨k0, v0⟩ := e
      simp only [List.map_cons, List.nodup_cons] at h
      by_cases h2 : k0 = k
      · subst h2
        have hs : setEntry ((k0, v0) :: tl) k0 v = (k0, v) :: tl := by
          simp [setEntry]
        rw [hs]
        simpa using And.intro h.1 h.2
      · have ihh := ih h.2
        simp only [setEntry, if_neg h2, List.map_cons, List.nodup_cons]
        constructor
        · intro hm
          rcases (mem_keys_setEntry tl k k0 v).mp hm with h3 | h3
          · exact h2 h3
          · exact h.1 h3
        · exact ihh

theorem entry_mem_setEntry {κ α : Type} [DecidableEq κ]
    (l : List (κ × α)) (k q : κ) (v w : α)
    (h : (q, w) ∈ setEntry l k v) : (q, w) ∈ l ∨ (q = k ∧ w = v) := by
  induction l with
  | nil =>
      simp [setEntry] at h
      right; exact h
  | cons e tl ih =>
      obtain ⟨k0, v0⟩ := e
      by_cases h2 : k0 = k
      · subst h2
        simp only [setEntry, if_pos rfl] at h
        rcases List.mem_cons.mp h with h3 | h3
        · right
          exact ⟨congrArg Prod.fst h3, congrArg Prod.snd h3⟩
        · left; exact List.mem_cons_of_mem _ h3
      · simp only [setEntry, if_neg h2] at h
        rcases List.mem_cons.mp h with h3 | h3
        · left; exact h3 ▸ List.mem_cons_self _ _
        · rcases ih h3 with h4 | h4
          · left; exact List.mem_cons_of_mem _ h4
          · right; exact h4

theorem getPath_emptyObjectRule_cons (q : String) (qs : List String) :
    getPath emptyObjectRule (q :: qs) = Option.none := by
  simp [getPath, emptyObjectRule, Rule.children, Fields.get]

theorem insertPath_get : ∀ (k : List String) (t t' v : Rule),
    insertPath t k v = Option.some t' → getPath t' k = Option.some v
  | [], t, t', v, h => by simp [insertPath] at h
  | [a], t, t', v, h => by
      cases t with
      | mk ty rq mnl mxl p e mn mx i mni mxi ch =>
        cases ch with
        | none => simp [insertPath] at h
        | some fs =>
            simp only [insertPath, Option.some.injEq] at h
            subst h
            simp [getPath, Rule.children, Fields.get_set_eq]
  | a :: b :: ks, t, t', v, h => by
      cases t with
      | mk ty rq mnl mxl p e mn mx i mni mxi ch =>
        cases ch with
        | none => simp [insertPath] at h
        | some fs =>
            simp only [insertPath] at h
            cases hi : insertPath
                (match fs.get a with
                 | Option.some n => n
                 | Option.none => emptyObjectRule) (b :: ks) v with
            | none => rw [hi] at h; simp at h
            | some n2 =>
                rw [hi] at h
                simp only [Option.some.injEq] at h
                subst h
                simp only [getPath, Rule.children, Fields.get_set_eq]
                exact insertPath_get (b :: ks) _ n2 v hi

theorem insertPath_preserve : ∀ (k : List String) (t t' v : Rule)
    (p : List String), insertPath t k v = Option.some t' →
    isSegPrefixOf k p = false → isSegPrefixOf p k = false →
    getPath t' p = getPath t p
  | [], t, t', v, p, h, _, _ => by simp [insertPath] at h
  | [a], t, t', v, p, h, hkp, hpk => by
      cases t with
      | mk ty rq mnl mxl pp e mn mx i mni mxi ch =>
        cases ch with
        | none => simp [insertPath] at h
        | some fs =>
            simp only [insertPath, Option.some.injEq] at h
            subst h
            cases p with
            | nil => simp [isSegPrefixOf] at hpk
            | cons p1 ps =>
                by_cases hpa : p1 = a
                · subst hpa
                  simp [isSegPrefixOf] at hkp
                · simp [getPath, Rule.children,
                    Fields.get_set_ne fs a p1 v (fun hh => hpa hh.symm)]
  | a :: b :: ks, t, t', v, p, h, hkp, hpk => by
      cases t with
      | mk ty rq mnl mxl pp e mn mx i mni mxi ch =>
        cases ch with
        | none => simp [insertPath] at h
        | some fs =>
            simp only [insertPath] at h
            cases hi : insertPath
                (match fs.get a with
                 | Option.some n => n
                 | Option.none => emptyObjectRule) (b :: ks) v with
            | none => rw [hi] at h; simp at h
            | some n2 =>
                rw [hi] at h
                simp only [Option.some.injEq] at h
                subst h
                cases p with
                | nil => simp [isSegPrefixOf] at hpk
                | cons p1 ps =>
                    by_cases hpa : p1 = a
                    · subst hpa
                      simp only [isSegPrefixOf, decide_eq_true_eq] at hkp hpk
                      have hkp' : isSegPrefixOf (b :: ks) ps = false := by
                        simpa using hkp
                      have hpk' : isSegPrefixOf ps (b :: ks) = false := by
                        simpa using hpk
                      simp only [getPath, Rule.children, Fields.get_set_eq]
                      cases hg : fs.get p1 with
                      | none =>
                          rw [hg] at hi
                          have := insertPath_preserve (b :: ks)
                            emptyObjectRule n2 v ps hi hkp' hpk'
                          rw [this]
                          cases ps with
                          | nil => simp [isSegPrefixOf] at hpk'
                          | cons q qs => simp [getPath_emptyObjectRule_cons]
                      | some n =>
                          rw [hg] at hi
                          exact insertPath_preserve (b :: ks) n n2 v ps hi
                            hkp' hpk'
                    · simp [getPath, Rule.children,
                        Fields.get_set_ne fs a p1 n2 (fun hh => hpa hh.symm)]

theorem rebuildAux_preserve (P : List String) :
    ∀ (es : List (String × Rule)) (acc res : Rule),
    rebuildAux es acc = Option.some res →
    (∀ q r2, (q, r2) ∈ es → isSegPrefixOf (segsOf q) P = false ∧
      isSegPrefixOf P (segsOf q) = false) →
    getPath res P = getPath acc P := by
  intro es
  induction es with
  | nil =>
      intro acc res h _
      simp only [rebuildAux, Option.some.injEq] at h
      subst h; rfl
  | cons e tl ih =>
      intro acc res h hsep
      obtain ⟨q, w⟩ := e
      simp only [rebuildAux] at h
      cases hi : insertPath acc (segsOf q) w with
      | none => rw [hi] at h; simp at h
      | some acc1 =>
          rw [hi] at h
          have hq := hsep q w (List.mem_cons_self _ _)
          have h1 := insertPath_preserve (segsOf q) acc acc1 w P hi hq.1 hq.2
          rw [ih acc1 res h (fun q2 r2 hm => hsep q2 r2 (List.mem_cons_of_mem _ hm))]
          exact h1

theorem rebuildAux_lookup (p : String) (v : Rule) :
    ∀ (es : List (String × Rule)) (acc res : Rule),
    rebuildAux es acc = Option.some res →
    lookupEntry es p = Option.some v →
    (es.map Prod.fst).Nodup →
    (∀ q r2, (q, r2) ∈ es → q ≠ p → conflictB p q = false) →
    getPath res (segsOf p) = Option.some v := by
  intro es
  induction es with
  | nil => intro acc res _ hl; simp [lookupEntry] at hl
  | cons e tl ih =>
      intro acc res h hl hnd hsep
      obtain ⟨q, w⟩ := e
      simp only [rebuildAux] at h
      cases hi : insertPath acc (segsOf q) w with
      | none => rw [hi] at h; simp at h
      | some acc1 =>
          rw [hi] at h
          by_cases hq : q = p
          · subst hq
            have hl' : w = v := by simpa [lookupEntry] using hl
            subst hl'
            have hget := insertPath_get (segsOf q) acc acc1 w hi
            have hpres : getPath res (segsOf q) = getPath acc1 (segsOf q) := by
              refine rebuildAux_preserve (segsOf q) tl acc1 res h ?_
              intro q2 r2 hm
              have hq2 : q2 ≠ q := by
                intro hqq
                subst hqq
                simp only [List.map_cons, List.nodup_cons] at hnd
                exact hnd.1 (List.mem_map_of_mem Prod.fst hm)
              have := hsep q2 r2 (List.mem_cons_of_mem _ hm) hq2
              simp only [conflictB, Bool.or_eq_false_iff] at this
              exact ⟨this.2, this.1⟩
            rw [hpres]; exact hget
          · simp only [lookupEntry, if_neg hq] at hl
            simp only [List.map_cons, List.nodup_cons] at hnd
            exact ih acc1 res h hl hnd.2
              (fun q2 r2 hm => hsep q2 r2 (List.mem_cons_of_mem _ hm))

theorem selectBaseAux_mem (ov : Overrides) (q : String) :
    ∀ (L acc : List (String × Rule)),
    (q ∈ (selectBaseAux ov L acc).map Prod.fst ↔
      (q ∈ L.map Prod.fst ∧ (ov.includeL = [] ∨ q ∈ ov.includeL) ∧
        q ∉ ov.excludeL) ∨ q ∈ acc.map Prod.fst) := by
  intro L
  induction L with
  | nil => intro acc; simp [selectBaseAux]
  | cons e tl ih =>
      intro acc
      obtain ⟨path, rule⟩ := e
      by_cases hc1 : ov.includeL ≠ [] ∧ path ∉ ov.includeL
      · have hstep : selectBaseAux ov ((path, rule) :: tl) acc =
            selectBaseAux ov tl acc := by
          simp only [selectBaseAux, if_pos hc1]
        rw [hstep, ih]
        have hpf : ¬((q = path ∨ q ∈ tl.map Prod.fst) ∧
            (ov.includeL = [] ∨ q ∈ ov.includeL) ∧ q ∉ ov.excludeL ∧
            q = path) := by
          rintro ⟨_, hin, _, rfl⟩
          rcases hin with h | h
          · exact hc1.1 h
          · exact hc1.2 h
        simp only [List.map_cons, List.mem_cons]
        constructor
        · rintro (⟨hm, hf⟩ | ha)
          · exact Or.inl ⟨Or.inr hm, hf⟩
          · exact Or.inr ha
        · rintro (⟨hm, hf⟩ | ha)
          · rcases hm with rfl | hm
            · exact absurd ⟨Or.inl rfl, hf.1, hf.2, rfl⟩ hpf
            · exact Or.inl ⟨hm, hf⟩
          · exact Or.inr ha
      · by_cases hc2 : path ∈ ov.excludeL
        · have hstep : selectBaseAux ov ((path, rule) :: tl) acc =
              selectBaseAux ov tl acc := by
            simp only [selectBaseAux, if_neg hc1, if_pos hc2]
          rw [hstep, ih]
          simp only [List.map_cons, List.mem_cons]
          constructor
          · rintro (⟨hm, hf⟩ | ha)
            · exact Or.inl ⟨Or.inr hm, hf⟩
            · exact Or.inr ha
          · rintro (⟨hm, hf⟩ | ha)
            · rcases hm with rfl | hm
              · exact absurd hc2 hf.2
              · exact Or.inl ⟨hm, hf⟩
            · exact Or.inr ha
        · have hstep : selectBaseAux ov ((path, rule) :: tl) acc =
              selectBaseAux ov tl
                (setEntry acc path (cloneWith ov path rule)) := by
            simp only [selectBaseAux, if_neg hc1, if_neg hc2]
          have hfp : (ov.includeL = [] ∨ path ∈ ov.includeL) ∧
              path ∉ ov.excludeL := by
            constructor
            · by_cases hn : ov.includeL = []
              · exact Or.inl hn
              · right
                by_contra hno
                exact hc1 ⟨hn, hno⟩
            · exact hc2
          rw [hstep, ih]
          rw [mem_keys_setEntry]
          simp only [List.map_cons, List.mem_cons]
          constructor
          · rintro (⟨hm, hf⟩ | hq | ha)
            · exact Or.inl ⟨Or.inr hm, hf⟩
            · subst hq; exact Or.inl ⟨Or.inl rfl, hfp⟩
            · exact Or.inr ha
          · rintro (⟨hm, hf⟩ | ha)
            · rcases hm with rfl | hm
              · exact Or.inr (Or.inl rfl)
              · exact Or.inl ⟨hm, hf⟩
            · exact Or.inr (Or.inr ha)

theorem selectBaseAux_nodup (ov : Overrides) :
    ∀ (L acc : List (String × Rule)),
    (acc.map Prod.fst).Nodup → ((selectBaseAux ov L acc).map Prod.fst).Nodup := by
  intro L
  induction L with
  | nil => intro acc h; simpa [selectBaseAux] using h
  | cons e tl ih =>
      intro acc h
      obtain ⟨path, rule⟩ := e
      by_cases hc1 : ov.includeL ≠ [] ∧ path ∉ ov.includeL
      · simpa only [selectBaseAux, if_pos hc1] using ih acc h
      · by_cases hc2 : path ∈ ov.excludeL
        · simpa only [selectBaseAux, if_neg hc1, if_pos hc2] using ih acc h
        · simp only [selectBaseAux, if_neg hc1, if_neg hc2]
          exact ih _ (nodup_keys_setEntry acc path _ h)

theorem selectBaseAux_lookup_notmem (ov : Overrides) (p : String) :
    ∀ (L acc : List (String × Rule)), p ∉ L.map Prod.fst →
    lookupEntry (selectBaseAux ov L acc) p = lookupEntry acc p := by
  intro L
  induction L with
  | nil => intro acc _; simp [selectBaseAux]
  | cons e tl ih =>
      intro acc hm
      obtain ⟨path, rule⟩ := e
      simp only [List.map_cons, List.mem_cons] at hm
      push_neg at hm
      by_cases hc1 : ov.includeL ≠ [] ∧ path ∉ ov.includeL
      · simpa only [selectBaseAux, if_pos hc1] using ih acc hm.2
      · by_cases hc2 : path ∈ ov.excludeL
        · simpa only [selectBaseAux, if_neg hc1, if_pos hc2] using ih acc hm.2
        · simp only [selectBaseAux, if_neg hc1, if_neg hc2]
          rw [ih _ hm.2]
          exact lookupEntry_setEntry_ne acc path p _ (fun hh => hm.1 hh.symm)

theorem selectBaseAux_lookup (ov : Overrides) (p : String) (r : Rule)
    (hf1 : ov.includeL = [] ∨ p ∈ ov.includeL) (hf2 : p ∉ ov.excludeL) :
    ∀ (L acc : List (String × Rule)), lookupEntry L p = Option.some r →
    (L.map Prod.fst).Nodup →
    lookupEntry (selectBaseAux ov L acc) p =
      Option.some (cloneWith ov p r) := by
  intro L
  induction L with
  | nil => intro acc hl; simp [lookupEntry] at hl
  | cons e tl ih =>
      intro acc hl hnd
      obtain ⟨path, rule⟩ := e
      simp only [List.map_cons, List.nodup_cons] at hnd
      by_cases hq : path = p
      · subst hq
        have hr : rule = r := by simpa [lookupEntry] using hl
        subst hr
        have hc1 : ¬(ov.includeL ≠ [] ∧ path ∉ ov.includeL) := by
          rintro ⟨hne, hnotin⟩
          rcases hf1 with h | h
          · exact hne h
          · exact hnotin h
        simp only [selectBaseAux, if_neg hc1, if_neg hf2]
        rw [selectBaseAux_lookup_notmem ov path tl _ hnd.1]
        exact lookupEntry_setEntry_eq acc path _
      · simp only [lookupEntry, if_neg hq] at hl
        by_cases hc1 : ov.includeL ≠ [] ∧ path ∉ ov.includeL
        · simpa only [selectBaseAux, if_pos hc1] using ih acc hl hnd.2
        · by_cases hc2 : path ∈ ov.excludeL
          · simpa only [selectBaseAux, if_neg hc1, if_pos hc2] using
              ih acc hl hnd.2
          · simp only [selectBaseAux, if_neg hc1, if_neg hc2]
            exact ih _ hl hnd.2

theorem applyAppendAux_mem (q : String) :
    ∀ (app eff : List (String × Rule)),
    (q ∈ (applyAppendAux app eff).map Prod.fst ↔
      q ∈ app.map Prod.fst ∨ q ∈ eff.map Prod.fst) := by
  intro app
  induction app with
  | nil => intro eff; simp [applyAppendAux]
  | cons e tl ih =>
      intro eff
      obtain ⟨path, rule⟩ := e
      simp only [applyAppendAux]
      rw [ih, mem_keys_setEntry]
      simp only [List.map_cons, List.mem_cons]
      tauto

theorem applyAppendAux_nodup :
    ∀ (app eff : List (String × Rule)),
    (eff.map Prod.fst).Nodup → ((applyAppendAux app eff).map Prod.fst).Nodup := by
  intro app
  induction app with
  | nil => intro eff h; simpa [applyAppendAux] using h
  | cons e tl ih =>
      intro eff h
      obtain ⟨path, rule⟩ := e
      simp only [applyAppendAux]
      exact ih _ (nodup_keys_setEntry eff path _ h)

theorem applyAppendAux_lookup_notmem (p : String) :
    ∀ (app eff : List (String × Rule)), p ∉ app.map Prod.fst →
    lookupEntry (applyAppendAux app eff) p = lookupEntry eff p := by
  intro app
  induction app with
  | nil => intro eff _; simp [applyAppendAux]
  | cons e tl ih =>
      intro eff hm
      obtain ⟨path, rule⟩ := e
      simp only [List.map_cons, List.mem_cons] at hm
      push_neg at hm
      simp only [applyAppendAux]
      rw [ih _ hm.2]
      exact lookupEntry_setEntry_ne eff path p _ (fun hh => hm.1 hh.symm)

theorem applyAppendAux_lookup (p : String) (r : Rule) :
    ∀ (app eff : List (String × Rule)),
    lookupEntry app p = Option.some r → (app.map Prod.fst).Nodup →
    lookupEntry (applyAppendAux app eff) p =
      Option.some (mergeRules appendDefault r) := by
  intro app
  induction app with
  | nil => intro eff hl; simp [lookupEntry] at hl
  | cons e tl ih =>
      intro eff hl hnd
      obtain ⟨path, rule⟩ := e
      simp only [List.map_cons, List.nodup_cons] at hnd
      by_cases hq : path = p
      · subst hq
        have hr : rule = r := by simpa [lookupEntry] using hl
        subst hr
        simp only [applyAppendAux]
        rw [applyAppendAux_lookup_notmem path tl _ hnd.1]
        exact lookupEntry_setEntry_eq eff path _
      · simp only [lookupEntry, if_neg hq] at hl
        simp only [applyAppendAux]
        exact ih _ hl hnd.2

theorem isSegPrefixOf_refl : ∀ (l : List String), isSegPrefixOf l l = true
  | [] => rfl
  | a :: tl => by simp [isSegPrefixOf, isSegPrefixOf_refl tl]

theorem conflictB_self (p : String) : conflictB p p = true := by
  simp [conflictB, isSegPrefixOf_refl]

mutual

theorem flattenRule_nodup : ∀ (key : String) (r : Rule)
    (out : List (String × Rule)), (out.map Prod.fst).Nodup →
    ((flattenRule key r out).map Prod.fst).Nodup
  | key, .mk ty rq mnl mxl p e mn mx i mni mxi ch, out, h => by
      cases ty <;> cases ch <;>
        first
          | exact flattenFields_nodup _ _ _ h
          | exact nodup_keys_setEntry out key _ h

theorem flattenFields_nodup : ∀ (fs : Fields) (pre : String)
    (out : List (String × Rule)), (out.map Prod.fst).Nodup →
    ((flattenFields fs pre out).map Prod.fst).Nodup
  | .nil, _, _, h => h
  | .cons k c tl, pre, out, h =>
      flattenFields_nodup tl pre _ (flattenRule_nodup (joinPath pre k) c out h)

end

theorem flatten_nodup (t : Rule) : ((flatten t).map Prod.fst).Nodup := by
  unfold flatten
  cases t.children with
  | none => simp
  | some fs => exact flattenFields_nodup fs "" [] (by simp)

theorem effective_sep (t : Rule) (ov : Overrides) (p : String)
    (happ : ∀ q r2, (q, r2) ∈ ov.append → q ≠ p → conflictB p q = false)
    (hbase : ∀ q r2, (q, r2) ∈ flatten t → q ≠ p → conflictB p q = false) :
    ∀ q r2, (q, r2) ∈ applyAppendAux ov.append (selectBase t ov) → q ≠ p →
      conflictB p q = false := by
  intro q r2 hm hne
  have hk : q ∈ (applyAppendAux ov.append (selectBase t ov)).map Prod.fst :=
    List.mem_map_of_mem Prod.fst hm
  rcases (applyAppendAux_mem q ov.append (selectBase t ov)).mp hk with hk | hk
  · obtain ⟨⟨q1, r3⟩, hmem, hfst⟩ := List.mem_map.mp hk
    cases hfst
    exact happ q1 r3 hmem hne
  · have hk2 := (selectBaseAux_mem ov q (flatten t) []).mp
      (by simpa [selectBase] using hk)
    simp only [List.map_nil, List.not_mem_nil, or_false] at hk2
    obtain ⟨⟨q1, r3⟩, hmem, hfst⟩ := List.mem_map.mp hk2.1
    cases hfst
    exact hbase q1 r3 hmem hne

theorem effective_nodup (t : Rule) (ov : Overrides) :
    ((applyAppendAux ov.append (selectBase t ov)).map Prod.fst).Nodup :=
  applyAppendAux_nodup ov.append (selectBase t ov)
    (selectBaseAux_nodup ov (flatten t) [] (by simp))

/-- A required string rule `{type:'string', required:true}`. -/
def strRuleReq : Rule :=
  .mk .string (Option.some true) .none .none .none .none .none .none .none
    .none .none .none

/-- An explicitly optional string rule `{type:'string', required:false}`. -/
def strRuleOptF : Rule :=
  .mk .string (Option.some false) .none .none .none .none .none .none .none
    .none .none .none

/-- A base tree with two required string leaves `a` and `b`. -/
def treeAB : Rule :=
  .mk .object .none .none .none .none .none .none .none .none .none .none
    (.some (.cons "a" strRuleReq (.cons "b" strRuleReq .nil)))

/-- Overrides listing `a` as both optional and required, and also appending a
rule for `a` whose `required` is `false`. -/
def ovC1cex : Overrides :=
  { optionalL := ["a"], requiredL := ["a"], append := [("a", strRuleOptF)] }

/-- C1 (counterexample): with `optional = required = ["a"]` and `a` surviving
filtering (no include/exclude), the claim demands `required = true` at `"a"`;
but when `append` also binds `"a"` with `required:false`, the append loop
overwrites the tie-broken clone and the returned tree carries
`required = false` at `"a"`. -/
theorem applyOverrides_required_tiebreak_cex :
    ovC1cex.includeL = [] ∧ "a" ∉ ovC1cex.excludeL ∧
    "a" ∈ ovC1cex.optionalL ∧ "a" ∈ ovC1cex.requiredL ∧
    ((applyOverrides treeAB ovC1cex).bind
        (fun t => getPath t (segsOf "a"))).map Rule.required =
      Option.some (Option.some false) := by
  exact ⟨rfl, by decide, by decide, by decide, rfl⟩

/-- C1 (amended): for a base path that survives include/exclude filtering and
appears in both `optional` and `required`, provided no `append` path equals or
prefix-overlaps it, no other base path prefix-overlaps it, and the rebuild of
the effective tree succeeds, the returned tree binds that path to its forced
clone, whose `required` is `true` — the `required` assignment wins over
`optional`. -/
theorem applyOverrides_required_wins (t : Rule) (ov : Overrides) (p : String)
    (r res : Rule)
    (hbase : lookupEntry (flatten t) p = Option.some r)
    (hinc : ov.includeL = [] ∨ p ∈ ov.includeL)
    (hexc : p ∉ ov.excludeL)
    (hopt : p ∈ ov.optionalL) (hreq : p ∈ ov.requiredL)
    (happ : ∀ q r2, (q, r2) ∈ ov.append → conflictB p q = false)
    (hsep : ∀ q r2, (q, r2) ∈ flatten t → q ≠ p → conflictB p q = false)
    (hres : applyOverrides t ov = Option.some res) :
    getPath res (segsOf p) = Option.some (cloneWith ov p r) ∧
      (cloneWith ov p r).required = Option.some true := by
  constructor
  · have hnotapp : p ∉ ov.append.map Prod.fst := by
      intro hm
      obtain ⟨⟨q1, r3⟩, hmem, hfst⟩ := List.mem_map.mp hm
      cases hfst
      have hc := happ q1 r3 hmem
      rw [conflictB_self] at hc
      exact Bool.true_eq_false.mp hc
    have hlk : lookupEntry (applyAppendAux ov.append (selectBase t ov)) p =
        Option.some (cloneWith ov p r) := by
      rw [applyAppendAux_lookup_notmem p ov.append _ hnotapp]
      exact selectBaseAux_lookup ov p r hinc hexc (flatten t) [] hbase
        (flatten_nodup t)
    exact rebuildAux_lookup p (cloneWith ov p r) _ emptyObjectRule res hres
      hlk (effective_nodup t ov)
      (effective_sep t ov p (fun q r2 hm _ => happ q r2 hm) hsep)
  · cases r with
    | mk ty rq mnl mxl pp e mn mx i mni mxi ch =>
        simp [cloneWith, Rule.required, hreq]

/-- Overrides for the C1 witness: `a` optional and required, plus an append
at the unrelated path `x`. -/
def ovC1wit : Overrides :=
  { optionalL := ["a"], requiredL := ["a"], append := [("x", strRuleReq)] }

/-- The tree the C1 witness run returns. -/
def resC1wit : Rule := (applyOverrides treeAB ovC1wit).getD emptyObjectRule

/-- C1 (witness): the amended tie-break theorem applied to a concrete run. -/
theorem applyOverrides_required_wins_witness :
    applyOverrides treeAB ovC1wit = Option.some resC1wit ∧
    getPath resC1wit (segsOf "a") =
      Option.some (cloneWith ovC1wit "a" strRuleReq) ∧
    (cloneWith ovC1wit "a" strRuleReq).required = Option.some true := by
  have happ : ∀ q r2, (q, r2) ∈ ovC1wit.append → conflictB "a" q = false := by
    intro q r2 hm
    have h1 := List.mem_singleton.mp hm
    have hq : q = "x" := congrArg Prod.fst h1
    subst hq
    decide
  have hsep : ∀ q r2, (q, r2) ∈ flatten treeAB → q ≠ "a" →
      conflictB "a" q = false := by
    intro q r2 hm hne
    rcases List.mem_cons.mp hm with h1 | h1
    · exact absurd (congrArg Prod.fst h1) hne
    · have hq : q = "b" := congrArg Prod.fst (List.mem_singleton.mp h1)
      subst hq
      decide
  have h := applyOverrides_required_wins treeAB ovC1wit "a" strRuleReq resC1wit
    rfl (Or.inl rfl) (by decide) (by decide) (by decide) happ hsep rfl
  exact ⟨rfl, h.1, h.2⟩

/-- Overrides for the C2 example: `include = ["a","b"]`, `exclude = ["b"]`. -/
def ovC2 : Overrides := { includeL := ["a", "b"], excludeL := ["b"] }

/-- The tree C2's example run returns: only `a` survives. -/
def resC2 : Rule :=
  .mk .object .none .none .none .none .none .none .none .none .none .none
    (.some (.cons "a" strRuleReq .nil))

/-- C2: a flattened base path is retained by the selection loop of
`applyOverrides` exactly when it passes the whitelist (`include`, when
non-empty) and is not excluded — exclusion wins over inclusion; and on the
concrete base `{a, b}` with `include = ["a","b"]`, `exclude = ["b"]`, the
returned tree keeps exactly `a`. -/
theorem applyOverrides_include_exclude :
    (∀ (t : Rule) (ov : Overrides) (q : String),
      q ∈ (selectBase t ov).map Prod.fst ↔
        q ∈ (flatten t).map Prod.fst ∧
          (ov.includeL = [] ∨ q ∈ ov.includeL) ∧ q ∉ ov.excludeL) ∧
    applyOverrides treeAB ovC2 = Option.some resC2 := by
  constructor
  · intro t ov q
    have h := selectBaseAux_mem ov q (flatten t) []
    simpa [selectBase] using h
  · rfl

/-- Base tree for the C3 counterexample: one string leaf `p`. -/
def treeC3cex : Rule :=
  .mk .object .none .none .none .none .none .none .none .none .none .none
    (.some (.cons "p" strRuleReq .nil))

/-- Overrides appending the nested path `p.q` under the string leaf `p`. -/
def ovC3cex : Overrides := { append := [("p.q", strRuleReq)] }

/-- C3 (counterexample): the claim promises that every `append` path is bound
in the returned tree; but appending `"p.q"` when the base keeps a string leaf
at `"p"` makes the rebuild loop dereference the leaf's absent `children` —
the source throws a `TypeError` and no tree is returned at all. -/
theorem applyOverrides_append_bypass_cex :
    lookupEntry ovC3cex.append "p.q" = Option.some strRuleReq ∧
    applyOverrides treeC3cex ovC3cex = Option.none := ⟨rfl, rfl⟩

/-- C3 (amended): an `append` path is bound in the returned tree to the merge
of `{type:'string', required:true}` with the caller's rule (caller wins),
regardless of `include`/`exclude` — provided no other append path and no
base path prefix-overlaps it, and the rebuild succeeds. -/
theorem applyOverrides_append_bypass (t : Rule) (ov : Overrides) (p : String)
    (r res : Rule)
    (hl : lookupEntry ov.append p = Option.some r)
    (hnd : (ov.append.map Prod.fst).Nodup)
    (happ : ∀ q r2, (q, r2) ∈ ov.append → q ≠ p → conflictB p q = false)
    (hbase : ∀ q r2, (q, r2) ∈ flatten t → q ≠ p → conflictB p q = false)
    (hres : applyOverrides t ov = Option.some res) :
    getPath res (segsOf p) = Option.some (mergeRules appendDefault r) := by
  have hlk := applyAppendAux_lookup p r ov.append (selectBase t ov) hl hnd
  exact rebuildAux_lookup p _ _ emptyObjectRule res hres hlk
    (effective_nodup t ov) (effective_sep t ov p happ hbase)

/-- Base tree for the C3 witness: one required string leaf `password`. -/
def treeC3wit : Rule :=
  .mk .object .none .none .none .none .none .none .none .none .none .none
    (.some (.cons "password" strRuleReq .nil))

/-- The spec's own append-bypass example: `password` is excluded yet also
appended. -/
def ovC3wit : Overrides :=
  { excludeL := ["password"], append := [("password", strRuleReq)] }

/-- The tree the C3 witness run returns. -/
def resC3wit : Rule := (applyOverrides treeC3wit ovC3wit).getD emptyObjectRule

/-- C3 (witness): the amended append-bypass theorem on the spec's example —
`password` excluded and appended is still present in the returned tree. -/
theorem applyOverrides_append_bypass_witness :
    "password" ∈ ovC3wit.excludeL ∧
    applyOverrides treeC3wit ovC3wit = Option.some resC3wit ∧
    getPath resC3wit (segsOf "password") =
      Option.some (mergeRules appendDefault strRuleReq) := by
  have happ : ∀ q r2, (q, r2) ∈ ovC3wit.append → q ≠ "password" →
      conflictB "password" q = false := by
    intro q r2 hm hne
    exact absurd (congrArg Prod.fst (List.mem_singleton.mp hm)) hne
  have hbase : ∀ q r2, (q, r2) ∈ flatten treeC3wit → q ≠ "password" →
      conflictB "password" q = false := by
    intro q r2 hm hne
    exact absurd (congrArg Prod.fst (List.mem_singleton.mp hm)) hne
  exact ⟨by decide, rfl,
    applyOverrides_append_bypass treeC3wit ovC3wit "password" strRuleReq
      resC3wit rfl (by decide) happ hbase rfl⟩

/-- C4: a second `getOrSetRuleTree` call with the same schema handle returns
the very tree the first call stored, leaves the cache untouched, and never
invokes the compile function (the schema is not re-walked). -/
theorem getOrSetRuleTree_idempotent (cache : List (Nat × Rule)) (s : Nat)
    (compileFn : Nat → Rule) :
    (getOrSetRuleTree ((getOrSetRuleTree cache (Option.some s) compileFn).2.1)
        (Option.some s) compileFn).1 =
      (getOrSetRuleTree cache (Option.some s) compileFn).1 ∧
    (getOrSetRuleTree ((getOrSetRuleTree cache (Option.some s) compileFn).2.1)
        (Option.some s) compileFn).2.1 =
      (getOrSetRuleTree cache (Option.some s) compileFn).2.1 ∧
    (getOrSetRuleTree ((getOrSetRuleTree cache (Option.some s) compileFn).2.1)
        (Option.some s) compileFn).2.2 = 0 := by
  cases h : lookupEntry cache s with
  | some t => simp [getOrSetRuleTree, h]
  | none => simp [getOrSetRuleTree, h, lookupEntry_setEntry_eq]

/-- C5: with a `null`/`undefined` schema, `getOrSetRuleTree` returns the
sentinel without touching the cache and without invoking the compile
function; but the sentinel the source defines is `{type:'object', fields:{}}`
— its `children` is absent, not the empty map the claim (and the declared
`RuleTree` interface) require. -/
theorem getOrSetRuleTree_null_schema (cache : List (Nat × Rule))
    (compileFn : Nat → Rule) :
    getOrSetRuleTree cache Option.none compileFn =
      (EMPTY_RULE_TREE, cache, 0) ∧
    EMPTY_RULE_TREE.children = OptFields.none := ⟨rfl, rfl⟩

/-- Base tree for C7: a single required string leaf `name`. -/
def treeC7 : Rule :=
  .mk .object .none .none .none .none .none .none .none .none .none .none
    (.some (.cons "name" strRuleReq .nil))

/-- Overrides appending the dotted path `name.first` below the leaf. -/
def ovC7 : Overrides := { append := [("name.first", strRuleReq)] }

/-- C7: `applyOverrides` is claimed to be a pure total function that returns
a fresh tree; but on this well-typed input its rebuild loop descends into the
retained string leaf `name` (kept because it is truthy) and then assigns into
its absent `children`, so the source throws a `TypeError` instead of
returning a tree — the rebuild loop lacks the `cur.children` guard that
`setNested` in the introspector has. -/
theorem applyOverrides_rebuild_typeerror :
    applyOverrides treeC7 ovC7 = Option.none := rfl

/-- Options of the C8 `username` field: required, minlength 3, maxlength 64. -/
def usernameOpts : MOptions :=
  { required := true, minlength := Option.some 3, maxlength := Option.some 64 }

/-- Options of the C8 `age` field: optional, min 13, max 120. -/
def ageOpts : MOptions := { minV := Option.some 13, maxV := Option.some 120 }

/-- The C8 schema: a required bounded string `username` and an optional
bounded number `age`, in `eachPath` order. -/
def demoSchema : MSchema :=
  .cons "username" (.mk "String" usernameOpts .none .none)
    (.cons "age" (.mk "Number" ageOpts .none .none) .nil)

/-- C8: introspecting the two-field schema and emitting it produces exactly
the object schema with `required = ["username"]`,
`properties.username = {type:"string", minLength:3, maxLength:64}` and
`properties.age = {type:"number", minimum:13, maximum:120}` (with
`additionalProperties:false` from the default `allowUnknown`). -/
theorem compile_then_emit_round_trip :
    toJsonSchema (compileRulesFromMongooseSchema demoSchema) false =
      Json.obj (.cons "type" (.str "object")
        (.cons "properties" (.obj
          (.cons "username" (.obj (.cons "type" (.str "string")
            (.cons "minLength" (.num 3) (.cons "maxLength" (.num 64) .nil))))
            (.cons "age" (.obj (.cons "type" (.str "number")
              (.cons "minimum" (.num 13) (.cons "maximum" (.num 120) .nil))))
              .nil)))
          (.cons "required" (.arr (.cons (.str "username") .nil))
            (.cons "additionalProperties" (.bool false) .nil)))) := rfl

/-- Raw override object `{append: {a: {type:"number"}}}`. -/
def rawOvAppendA : JsonFields :=
  .cons "append" (.obj (.cons "a" (.obj (.cons "type" (.str "number") .nil))
    .nil)) .nil

/-- Raw override object `{append: {b: {type:"boolean"}}}`. -/
def rawOvAppendB : JsonFields :=
  .cons "append" (.obj (.cons "b" (.obj (.cons "type" (.str "boolean") .nil))
    .nil)) .nil

/-- C10: two override objects that differ only inside `append` receive the
same cache key — the `JSON.stringify` replacer array holds just the seven
top-level names, so every nested `append` field name is filtered out and both
serialize with `"append":{}`. -/
theorem makeOverrideKey_append_collision :
    makeOverrideKey rawOvAppendA = makeOverrideKey rawOvAppendB ∧
    rawOvAppendA ≠ rawOvAppendB := by
  refine ⟨rfl, ?_⟩
  intro h
  injection h with hk hv htl
  injection hv with hfs
  injection hfs with hkey
  exact absurd hkey (by decide)

theorem normErr_eq_specNormalizeError (e : AjvError) :
    normErr e = specNormalizeError e := by
  unfold normErr specNormalizeError jsOrStr
  by_cases h : normalizeInstancePath e.instancePath = ""
  · simp only [h, ne_eq, not_true_eq_false, if_false, ite_not]
    cases e.missingProperty with
    | none => simp
    | some m =>
        by_cases hm : m = "" <;> simp [hm, Option.getD]
  · simp [h]

/-- C9: the function returned by `buildAjvValidator` is total — it returns
`{ok:true, data, errors:[]}` when the engine accepts and otherwise
`{ok:false, data:null, errors}` where each error is normalized exactly as the
spec describes: `field` is the `instancePath` with the leading `/` stripped
and the other `/` turned into `.`, falling back to the missing required
property's name and then to the empty string; `error` is the engine keyword
and `message` the engine message. -/
theorem buildAjvValidator_result_shape {α : Type}
    (engine : α → Bool × List AjvError) (data : α) :
    runBuiltValidator engine data =
      (if (engine data).1 then
        { ok := true, data := Option.some data, errors := [] }
      else
        { ok := false, data := Option.none,
          errors := (engine data).2.map specNormalizeError } :
        ValidatorResult α) := by
  unfold runBuiltValidator
  have hfun : normErr = specNormalizeError := funext normErr_eq_specNormalizeError
  rw [hfun]

/-- Length of a JSON array. -/
def jlistLength : JsonList → Nat
  | .nil => 0
  | .cons _ tl => jlistLength tl + 1

/-- Pairing of two JSON arrays, truncated at the shorter. -/
def jzip : JsonList → JsonList → List (Json × Json)
  | .cons a as, .cons b bs => (a, b) :: jzip as bs
  | _, _ => []

/-- Structural equality of JSON values up to object key order (the model has
no `undefined`, so an `undefined` property and an absent one already
coincide): objects are compared by property lookup, arrays pointwise. -/
inductive JEquiv : Json → Json → Prop where
  | null : JEquiv .null .null
  | bool (b : Bool) : JEquiv (.bool b) (.bool b)
  | num (n : Int) : JEquiv (.num n) (.num n)
  | str (s : String) : JEquiv (.str s) (.str s)
  | arr (xs ys : JsonList) (hl : jlistLength xs = jlistLength ys)
      (h : ∀ x y, (x, y) ∈ jzip xs ys → JEquiv x y) :
      JEquiv (.arr xs) (.arr ys)
  | obj (fs gs : JsonFields)
      (hdom : ∀ k, (fs.get k).isSome = (gs.get k).isSome)
      (h : ∀ k a b, fs.get k = Option.some a → gs.get k = Option.some b →
        JEquiv a b) : JEquiv (.obj fs) (.obj gs)

theorem truthyJ_congr {a b : Json} (h : JEquiv a b) :
    truthyJ a = truthyJ b := by
  cases h <;> rfl

theorem stringifyEntries_get : ∀ (fs : JsonFields) (k : String),
    lookupEntry (stringifyEntries fs) k = (fs.get k).map stringifyJ
  | .nil, k => by simp [stringifyEntries, lookupEntry, JsonFields.get]
  | .cons k0 v tl, k => by
      by_cases h : k0 = k
      · simp [stringifyEntries, lookupEntry, JsonFields.get, h]
      · simp [stringifyEntries, lookupEntry, JsonFields.get, h,
          stringifyEntries_get tl k]

theorem stringifyArr_congr : ∀ (xs ys : JsonList),
    jlistLength xs = jlistLength ys →
    (∀ x y, (x, y) ∈ jzip xs ys → stringifyJ x = stringifyJ y) →
    stringifyArr xs = stringifyArr ys
  | .nil, .nil, _, _ => rfl
  | .nil, .cons b bs, hl, _ => by simp [jlistLength] at hl
  | .cons a as, .nil, hl, _ => by simp [jlistLength] at hl
  | .cons a as, .cons b bs, hl, h => by
      simp only [jlistLength, Nat.add_right_cancel_iff] at hl
      simp only [stringifyArr]
      rw [h a b (by simp [jzip]),
        stringifyArr_congr as bs hl
          (fun x y hm => h x y (by simp [jzip, hm]))]

theorem stringifyJ_congr {a b : Json} (h : JEquiv a b) :
    stringifyJ a = stringifyJ b := by
  induction h with
  | null => rfl
  | bool b => rfl
  | num n => rfl
  | str s => rfl
  | arr xs ys hl h ih =>
      simp only [stringifyJ]
      rw [stringifyArr_congr xs ys hl ih]
  | obj fs gs hdom h ih =>
      simp only [stringifyJ]
      have hfrag : ∀ k : String,
          (lookupEntry (stringifyEntries fs) k).map
            (fun sv => jsonQuote k ++ ":" ++ sv) =
          (lookupEntry (stringifyEntries gs) k).map
            (fun sv => jsonQuote k ++ ":" ++ sv) := by
        intro k
        rw [stringifyEntries_get, stringifyEntries_get]
        cases hf : fs.get k with
        | none =>
            have hd := hdom k
            rw [hf] at hd
            cases hg : gs.get k with
            | none => rfl
            | some b => rw [hg] at hd; simp at hd
        | some a =>
            have hd := hdom k
            rw [hf] at hd
            cases hg : gs.get k with
            | none => rw [hg] at hd; simp at hd
            | some b => simp [ih k a b hf hg]
      simp only [hfrag]

/-- C6: structurally equal raw override objects (same properties up to key
order; the model identifies `undefined` with absent) receive the same cache
key from `makeOverrideKey` — the key reads the seven fields by name and the
replacer array fixes the serialization order at every level. -/
theorem makeOverrideKey_respects_equiv (o1 o2 : JsonFields)
    (h : JEquiv (.obj o1) (.obj o2)) :
    makeOverrideKey o1 = makeOverrideKey o2 := by
  cases h with
  | obj fs gs hdom hv =>
    have hkey : ∀ name : String,
        JEquiv (jsOrNull (o1.get name)) (jsOrNull (o2.get name)) := by
      intro name
      cases hf : o1.get name with
      | none =>
          have hd := hdom name
          rw [hf] at hd
          cases hg : o2.get name with
          | none => exact JEquiv.null
          | some b => rw [hg] at hd; simp at hd
      | some a =>
          have hd := hdom name
          rw [hf] at hd
          cases hg : o2.get name with
          | none => rw [hg] at hd; simp at hd
          | some b =>
              have hab := hv name a b hf hg
              have htr := truthyJ_congr hab
              simp only [jsOrNull]
              rw [← htr]
              by_cases ht : truthyJ a = true
              · simp only [ht, if_pos]
                exact hab
              · simp only [ht, if_neg]
                exact JEquiv.null
    have hbool : ∀ name : String,
        jsBoolOf (o1.get name) = jsBoolOf (o2.get name) := by
      intro name
      cases hf : o1.get name with
      | none =>
          have hd := hdom name
          rw [hf] at hd
          cases hg : o2.get name with
          | none => rfl
          | some b => rw [hg] at hd; simp at hd
      | some a =>
          have hd := hdom name
          rw [hf] at hd
          cases hg : o2.get name with
          | none => rw [hg] at hd; simp at hd
          | some b =>
              simp only [jsBoolOf]
              exact truthyJ_congr (hv name a b hf hg)
    unfold makeOverrideKey
    apply stringifyJ_congr
    apply JEquiv.obj
    · intro k
      simp only [JsonFields.get]
      split_ifs <;> rfl
    · intro k a b h1 h2
      simp only [JsonFields.get] at h1 h2
      split_ifs at h1 h2
      case _ => cases h1; cases h2; exact hkey "include"
      case _ => cases h1; cases h2; exact hkey "exclude"
      case _ => cases h1; cases h2; exact hkey "optional"
      case _ => cases h1; cases h2; exact hkey "required"
      case _ => cases h1; cases h2; exact hkey "append"
      case _ =>
          cases h1; cases h2
          rw [hbool "allowUnknown"]
          exact JEquiv.bool _
      case _ =>
          cases h1; cases h2
          rw [hbool "coerceTypes"]
          exact JEquiv.bool _

/-- A raw override object `{coerceTypes: true, allowUnknown: true}`. -/
def rawOvOrder1 : JsonFields :=
  .cons "coerceTypes" (.bool true) (.cons "allowUnknown" (.bool true) .nil)

/-- The same object with its keys in the opposite order. -/
def rawOvOrder2 : JsonFields :=
  .cons "allowUnknown" (.bool true) (.cons "coerceTypes" (.bool true) .nil)

/-- C6 (witness): two key-order permutations of the same override object are
structurally equal and get the same cache key. -/
theorem makeOverrideKey_respects_equiv_witness :
    makeOverrideKey rawOvOrder1 = makeOverrideKey rawOvOrder2 := by
  have hdom : ∀ k, (rawOvOrder1.get k).isSome = (rawOvOrder2.get k).isSome := by
    intro k
    by_cases hc : "coerceTypes" = k
    · by_cases ha : "allowUnknown" = k
      · exact absurd (hc.trans ha.symm) (by decide)
      · simp [rawOvOrder1, rawOvOrder2, JsonFields.get, hc, ha]
    · by_cases ha : "allowUnknown" = k
      · simp [rawOvOrder1, rawOvOrder2, JsonFields.get, hc, ha]
      · simp [rawOvOrder1, rawOvOrder2, JsonFields.get, hc, ha]
  have hv : ∀ k a b, rawOvOrder1.get k = Option.some a →
      rawOvOrder2.get k = Option.some b → JEquiv a b := by
    intro k a b h1 h2
    simp only [rawOvOrder1, rawOvOrder2, JsonFields.get] at h1 h2
    by_cases hc : "coerceTypes" = k
    · by_cases ha : "allowUnknown" = k
      · exact absurd (hc.trans ha.symm) (by decide)
      · rw [if_pos hc] at h1
        rw [if_neg ha, if_pos hc] at h2
        cases h1; cases h2
        exact JEquiv.bool true
    · by_cases ha : "allowUnknown" = k
      · rw [if_neg hc, if_pos ha] at h1
        rw [if_pos ha] at h2
        cases h1; cases h2
        exact JEquiv.bool true
      · rw [if_neg hc, if_neg ha] at h1
        exact absurd h1 (by simp)
  exact makeOverrideKey_respects_equiv rawOvOrder1 rawOvOrder2
    (JEquiv.obj rawOvOrder1 rawOvOrder2 hdom hv)
